import Mathlib

/-!
Verification of the selection-network (unary iteration) core of the
`cirq-ft` notebooks.

The executable heart of the repository is the pair of boolean-logic model
functions `total_control` and `segtree` in
`cirq-ft/cirq_ft/algos/unary_iteration.ipynb`, the explicit `L = 4`
unary-iteration circuit in the same notebook, and the `And` gate notebook
`cirq-ft/cirq_ft/algos/and_gate.ipynb`.  Those functions are embedded here
directly.  The library classes they demonstrate (`And`, `UnaryIterationGate`,
`SelectionRegister`) are imported by the notebooks but their sources are not
part of the corpus, so the corresponding definitions below are modelled from
the specification (each such definition is marked in its doc comment).

Sympy boolean expressions over the selection symbols are embedded by their
semantics: a theorem quantifying over `selection : List Bool` quantifies over
all assignments to the selection symbols.
-/

namespace CirqFT

/-- Embedding of `cirq_ft.infra.bit_tools.iter_bits(val, width)`: the bits of
`val`, most significant first, exactly `width` of them.  (The Python function
raises for `val ≥ 2 ^ width`; on that domain this definition agrees with it,
and it is total by reading only the low `width` bits.)  This is also the order
in which `itertools.product((0, 1), repeat=width)` enumerates bit patterns,
which `total_control` relies on. -/
def iter_bits (val : Nat) : Nat → List Bool
  | 0 => []
  | w + 1 => Nat.testBit val w :: iter_bits val w

/-- Embedding of `sympy.logic.boolalg.Xnor` on two boolean values. -/
def xnor (a b : Bool) : Bool := a == b

/-- Embedding of `total_control(selection, target)` from
`unary_iteration.ipynb`: for each `n` in `range(2 ** len(selection))`,
`target[n] ^= And(*[Xnor(s, t) for s, t in zip(selection, trial)])` where
`trial` is the `n`-th tuple of `itertools.product((0, 1), repeat=len(selection))`,
i.e. the bits of `n` most significant first.  The notebook's `print` calls are
side-effect free and dropped. -/
def total_control (selection : List Bool) (target : List Bool) : List Bool :=
  (List.range (2 ^ selection.length)).foldl
    (fun tgt n =>
      tgt.set n (Bool.xor (tgt.getD n false)
        ((selection.zip (iter_bits n selection.length)).all fun p => xnor p.1 p.2)))
    target

/-- Embedding of `segtree(ctrl, selection, target, depth, left, right)` from
`unary_iteration.ipynb`:

    if left == (right - 1):
        target[left] ^= ctrl
        return
    assert depth < len(selection)
    mid = (left + right) >> 1
    segtree(And(ctrl, Not(selection[depth])), selection, target, depth+1, left, mid)
    segtree(And(ctrl, selection[depth]), selection, target, depth+1, mid, right)

`none` models a raised exception: a failing `assert depth < len(selection)`,
or an `IndexError` from `target[left]` at a leaf.  Over Python ints
`left == right - 1` is `left + 1 == right`, which is what the guard states
(the notebook only ever calls `segtree` with `left < right`; for `right ≤ left`
the Python function never returns, so that branch is outside the domain of
interest and is given the harmless value `some target`). -/
def segtree (ctrl : Bool) (selection : List Bool) (target : List Bool)
    (depth left right : Nat) : Option (List Bool) :=
  if left + 1 = right then
    if left < target.length then
      some (target.set left (Bool.xor (target.getD left false) ctrl))
    else none
  else if _h : left + 1 < right then
    if depth < selection.length then
      let mid := (left + right) / 2
      match segtree (ctrl && !(selection.getD depth false)) selection target
          (depth + 1) left mid with
      | none => none
      | some t1 =>
          segtree (ctrl && selection.getD depth false) selection t1
            (depth + 1) mid right
    else none
  else some target
termination_by right - left
decreasing_by
  all_goals omega

/-- Leaf-visit trace of `segtree`: the list of pairs
`(index toggled, activation control)` in emission order.  The recursion
structure (branch controls `And(ctrl, Not(selection[depth]))` then
`And(ctrl, selection[depth])`, left interval before right interval) mirrors
`segtree` line by line. -/
def segtreeTrace (ctrl : Bool) (selection : List Bool)
    (depth left right : Nat) : List (Nat × Bool) :=
  if left + 1 = right then [(left, ctrl)]
  else if _h : left + 1 < right then
    segtreeTrace (ctrl && !(selection.getD depth false)) selection
      (depth + 1) left ((left + right) / 2) ++
    segtreeTrace (ctrl && selection.getD depth false) selection
      (depth + 1) ((left + right) / 2) right
  else []
termination_by right - left
decreasing_by
  all_goals omega

/-- Maximal `depth` argument over all calls in the `segtree` recursion tree
spanned from a call with interval `[left, right)`.  The call structure of
`segtree` does not depend on `ctrl`, `selection` or `target`, so only the
interval arguments appear. -/
def segtreeMaxDepth (depth left right : Nat) : Nat :=
  if left + 1 = right then depth
  else if _h : left + 1 < right then
    max (segtreeMaxDepth (depth + 1) left ((left + right) / 2))
        (segtreeMaxDepth (depth + 1) ((left + right) / 2) right)
  else depth
termination_by right - left
decreasing_by
  all_goals omega

/-- Specification device: the integer value encoded by the selection bits
`sel[depth], sel[depth+1], ..., sel[depth+k-1]`, most significant first —
the order in which `segtree` consumes them. -/
def selVal (sel : List Bool) (depth : Nat) : Nat → Nat
  | 0 => 0
  | k + 1 => (if sel.getD depth false then 2 ^ k else 0) + selVal sel (depth + 1) k

/-- Modelled from the spec: the action of the forward `And` operation
(`cirq_ft.And`, whose implementation is not under `src/`) on a computational
basis state `(a, b, t)`.  Per the `and_gate.ipynb` notebook it is the Toffoli
action `[a, b, c] -> [a, b, c ^ (a & b)]`, specialised to a freshly-zeroed
target. -/
def andForward (s : Bool × Bool × Bool) : Bool × Bool × Bool :=
  (s.1, s.2.1, Bool.xor s.2.2 (s.1 && s.2.1))

/-- Modelled from the spec: the action of the adjoint `And` operation on a
computational basis state, per the adjoint test of `and_gate.ipynb`: given
controls unchanged from the forward call and a target holding `a & b`, it
returns the target to exactly zero, i.e. it toggles the target by `a & b`. -/
def andAdjoint (s : Bool × Bool × Bool) : Bool × Bool × Bool :=
  (s.1, s.2.1, Bool.xor s.2.2 (s.1 && s.2.1))

/-- One emitted operation of the built selection network, carrying the
computational-basis values of the lines it acts on. -/
inductive NetOp where
  /-- Forward And-unit invocation computing `c1 && c2` into a fresh helper. -/
  | fwdAnd (c1 c2 : Bool) : NetOp
  /-- CNOT from the parent control line (value `c`) onto the live helper,
  turning the left-branch helper value into the right-branch one. -/
  | cnot (c : Bool) : NetOp
  /-- Adjoint And-unit invocation retiring the helper of a node whose branch
  controls were `c1 && c2` and `c1 && !c2`. -/
  | adjAnd (c1 c2 : Bool) : NetOp
  /-- Per-index leaf operation for `index`, activated by control value `ctrl`. -/
  | leafOp (index : Nat) (ctrl : Bool) : NetOp
  deriving DecidableEq

/-- Modelled from the spec: the selection-network builder
(`UnaryIterationGate.decompose_from_registers`, not under `src/`).  The node
layout — forward And for the left branch, recurse, CNOT on the helper to
switch to the right branch, recurse, adjoint And — is exactly the explicit
`L = 4` circuit of `unary_iteration.ipynb`; the pruning of intervals beyond
the iteration length `L` follows spec §4.2: a leaf `left ≥ L` emits nothing,
and an internal node with `mid ≥ L` recurses only into `[left, mid)` directly
reusing its activation control. -/
def buildNet (ctrl : Bool) (sel : List Bool) (L depth left right : Nat) :
    List NetOp :=
  if left + 1 = right then
    if left < L then [NetOp.leafOp left ctrl] else []
  else if _h : left + 1 < right then
    let mid := (left + right) / 2
    if L ≤ mid then
      buildNet ctrl sel L (depth + 1) left mid
    else
      NetOp.fwdAnd ctrl (!(sel.getD depth false)) ::
        (buildNet (ctrl && !(sel.getD depth false)) sel L (depth + 1) left mid ++
          (NetOp.cnot ctrl ::
            (buildNet (ctrl && sel.getD depth false) sel L (depth + 1) mid right ++
              [NetOp.adjAnd ctrl (sel.getD depth false)])))
  else []
termination_by right - left
decreasing_by
  all_goals omega

/-- Recogniser for forward And-unit invocations. -/
def isFwdAnd : NetOp → Bool
  | NetOp.fwdAnd _ _ => true
  | _ => false

/-- Number of forward And-unit invocations in an emitted operation sequence. -/
def countFwdAnd (ops : List NetOp) : Nat := (ops.filter isFwdAnd).length

/-- Error taxonomy of the spec (§7) relevant to register construction. -/
inductive RegError where
  | invalidBounds : RegError
  | invalidArity : RegError
  deriving DecidableEq

/-- Modelled from the spec: a `SelectionRegister` record (`cirq_ft`'s
implementation is not under `src/`): a named register of `bitsize` lines
carrying an `iteration_length`. -/
structure SelectionRegister where
  name : String
  bitsize : Nat
  iteration_length : Int
  deriving DecidableEq

/-- Modelled from the spec: `SelectionRegister` construction validation.
Spec §4.2/§7: `iteration_length ≤ 0` or `iteration_length > 2 ^ bitsize` is
an `InvalidBounds` condition raised at construction time. -/
def mkSelectionRegister (nm : String) (bitsize : Nat) (iteration_length : Int) :
    Except RegError SelectionRegister :=
  if iteration_length ≤ 0 then Except.error RegError.invalidBounds
  else if (2 : Int) ^ bitsize < iteration_length then
    Except.error RegError.invalidBounds
  else Except.ok ⟨nm, bitsize, iteration_length⟩

/-! ### Basic lemmas about the bit-level specification devices -/

theorem iter_bits_length (val : Nat) : ∀ w, (iter_bits val w).length = w := by
  intro w
  induction w with
  | zero => rfl
  | succ w ih => simp [iter_bits, ih]

theorem selVal_lt (sel : List Bool) : ∀ k depth, selVal sel depth k < 2 ^ k := by
  intro k
  induction k with
  | zero => intro depth; simp [selVal]
  | succ k ih =>
      intro depth
      have h1 := ih (depth + 1)
      have h2 : 2 ^ (k + 1) = 2 ^ k + 2 ^ k := by rw [pow_succ]; omega
      simp only [selVal]
      cases sel.getD depth false <;> simp <;> omega

theorem selVal_cons (b : Bool) (rest : List Bool) :
    ∀ k depth, selVal (b :: rest) (depth + 1) k = selVal rest depth k := by
  intro k
  induction k with
  | zero => intro depth; rfl
  | succ k ih =>
      intro depth
      simp only [selVal, List.getD_cons_succ, ih (depth + 1)]

theorem iter_bits_mod (n : Nat) : ∀ w j, w ≤ j → iter_bits (n % 2 ^ j) w = iter_bits n w := by
  intro w
  induction w with
  | zero => intro j _; rfl
  | succ w ih =>
      intro j hj
      simp only [iter_bits, Nat.testBit_mod_two_pow, ih j (by omega)]
      have : w < j := by omega
      simp [this]

theorem xnor_zip_self (l : List Bool) : ((l.zip l).all fun p => xnor p.1 p.2) = true := by
  induction l with
  | nil => rfl
  | cons b rest ih =>
      rw [List.zip_cons_cons, List.all_cons, ih]
      cases b <;> rfl

/-- The total-control activation expression for leaf `n` — the conjunction of
`Xnor(selection[i], bit_i(n))` over the selection bits — holds exactly when the
selection bits encode `n`. -/
theorem xnor_zip_eq_decide :
    ∀ (sel : List Bool) (n : Nat), n < 2 ^ sel.length →
      ((sel.zip (iter_bits n sel.length)).all fun p => xnor p.1 p.2) =
        decide (selVal sel 0 sel.length = n) := by
  intro sel
  induction sel with
  | nil =>
      intro n hn
      have hn0 : n = 0 := by simpa using hn
      subst hn0
      rfl
  | cons s rest ih =>
      intro n hn
      have hL : (s :: rest).length = rest.length + 1 := rfl
      set L := rest.length with hLdef
      have hpow : 2 ^ (L + 1) = 2 ^ L + 2 ^ L := by rw [pow_succ]; omega
      have hmlt : n % 2 ^ L < 2 ^ L := Nat.mod_lt _ (Nat.two_pow_pos L)
      have hdm := Nat.div_add_mod n (2 ^ L)
      have hdlt : n / 2 ^ L < 2 := by
        apply Nat.div_lt_of_lt_mul
        rw [hL] at hn
        omega
      have hbits : iter_bits n (L + 1) = Nat.testBit n L :: iter_bits n L := rfl
      rw [hL, hbits, List.zip_cons_cons, List.all_cons]
      rw [← iter_bits_mod n L L (le_refl L), ih (n % 2 ^ L) hmlt]
      have hsv : selVal (s :: rest) 0 (L + 1) =
          (if s then 2 ^ L else 0) + selVal rest 0 L := by
        simp only [selVal, List.getD_cons_zero, selVal_cons]
      rw [hsv]
      have hv := selVal_lt rest L 0
      rw [Nat.testBit_to_div_mod]
      obtain ⟨d, hd⟩ : ∃ d : Nat, n / 2 ^ L = d := ⟨_, rfl⟩
      rw [hd] at hdlt hdm ⊢
      rw [Nat.mod_eq_of_lt hdlt]
      have hcases : d = 0 ∨ d = 1 := by omega
      rcases hcases with h0 | h1
      · subst h0
        rw [Nat.mul_zero, Nat.zero_add] at hdm
        cases s <;> simp only [xnor] <;> norm_num <;> omega
      · subst h1
        rw [Nat.mul_one] at hdm
        cases s <;> simp only [xnor] <;> norm_num <;> omega

/-- Fixing the selection bits to the binary representation of `n` (most
significant first) makes them encode `n`. -/
theorem selVal_iter_bits (n w : Nat) (hn : n < 2 ^ w) :
    selVal (iter_bits n w) 0 w = n := by
  have hlen : (iter_bits n w).length = w := iter_bits_length n w
  have h := xnor_zip_eq_decide (iter_bits n w) n (by rw [hlen]; exact hn)
  rw [hlen] at h
  rw [xnor_zip_self] at h
  have := of_decide_eq_true h.symm
  exact this

/-! ### The main correctness invariant of `segtree` -/

/-- Invariant of the `segtree` recursion on an interval `[left, left + 2 ^ k)`
(the shape of every interval reachable from the top-level call): the call
returns normally, preserves the target length, and toggles exactly the entry
whose offset in the interval is the value encoded by the selection bits
`sel[depth..depth+k)`, provided the outer control is asserted; every other
entry is untouched. -/
theorem segtree_spec (sel : List Bool) :
    ∀ (k : Nat) (ctrl : Bool) (target : List Bool) (depth left : Nat),
      depth + k ≤ sel.length → left + 2 ^ k ≤ target.length →
      ∃ t', segtree ctrl sel target depth left (left + 2 ^ k) = some t' ∧
        t'.length = target.length ∧
        ∀ i, t'.getD i false =
          if left ≤ i ∧ i < left + 2 ^ k then
            Bool.xor (target.getD i false)
              (ctrl && decide (selVal sel depth k = i - left))
          else target.getD i false := by
  intro k
  induction k with
  | zero =>
      intro ctrl target depth left _ htar
      rw [pow_zero] at htar ⊢
      have hlt : left < target.length := by omega
      refine ⟨target.set left (Bool.xor (target.getD left false) ctrl),
        ?_, List.length_set target left _, ?_⟩
      · rw [segtree]
        simp [hlt]
      · intro i
        by_cases hi : i = left
        · subst hi
          rw [if_pos ⟨le_refl _, by omega⟩]
          simp only [List.getD_eq_getElem?_getD, List.getElem?_set_self hlt,
            Option.getD_some, selVal, Nat.sub_self]
          norm_num
        · rw [if_neg (by omega)]
          simp only [List.getD_eq_getElem?_getD, List.getElem?_set_ne (Ne.symm hi)]
  | succ k ih =>
      intro ctrl target depth left hdepth htar
      have hpow : 2 ^ (k + 1) = 2 ^ k + 2 ^ k := by rw [pow_succ]; omega
      have hne : ¬(left + 1 = left + 2 ^ (k + 1)) := by
        have := Nat.two_pow_pos k; omega
      have hlt : left + 1 < left + 2 ^ (k + 1) := by
        have := Nat.two_pow_pos k; omega
      have hdep : depth < sel.length := by omega
      have hmid : (left + (left + 2 ^ (k + 1))) / 2 = left + 2 ^ k := by omega
      obtain ⟨t1, e1, len1, spec1⟩ :=
        ih (ctrl && !(sel.getD depth false)) target (depth + 1) left
          (by omega) (by omega)
      obtain ⟨t2, e2, len2, spec2⟩ :=
        ih (ctrl && sel.getD depth false) t1 (depth + 1) (left + 2 ^ k)
          (by omega) (by rw [len1]; omega)
      refine ⟨t2, ?_, len2.trans len1, ?_⟩
      · rw [segtree]
        rw [if_neg hne, dif_pos hlt, if_pos hdep]
        simp only [hmid]
        rw [e1]
        have : left + 2 ^ k + 2 ^ k = left + 2 ^ (k + 1) := by omega
        rw [this] at e2
        exact e2
      · intro i
        have hv := selVal_lt sel k (depth + 1)
        have hsv : selVal sel depth (k + 1) =
            (if sel.getD depth false then 2 ^ k else 0) + selVal sel (depth + 1) k := rfl
        rw [spec2 i, spec1 i, hsv]
        by_cases h1 : left ≤ i ∧ i < left + 2 ^ k
        · rw [if_neg (by omega : ¬(left + 2 ^ k ≤ i ∧ i < left + 2 ^ k + 2 ^ k)),
            if_pos h1, if_pos (by omega : left ≤ i ∧ i < left + 2 ^ (k + 1))]
          congr 1
          cases hs : sel.getD depth false
          · simp only [Bool.not_false, Bool.and_true, Nat.zero_add, if_false]
            norm_num
          · simp only [Bool.not_true, Bool.and_false, Bool.false_and, if_true]
            have hne2 : ¬(2 ^ k + selVal sel (depth + 1) k = i - left) := by omega
            simp [hne2]
        · by_cases h2 : left + 2 ^ k ≤ i ∧ i < left + 2 ^ k + 2 ^ k
          · rw [if_pos h2, if_neg h1,
              if_pos (by omega : left ≤ i ∧ i < left + 2 ^ (k + 1))]
            congr 1
            cases hs : sel.getD depth false
            · simp only [Bool.and_false, Bool.false_and, Nat.zero_add, if_false]
              have hne2 : ¬(selVal sel (depth + 1) k = i - left) := by omega
              simp [hne2]
            · simp only [Bool.and_true, if_true]
              congr 1
              have hiff : (selVal sel (depth + 1) k = i - (left + 2 ^ k)) ↔
                  (2 ^ k + selVal sel (depth + 1) k = i - left) := by omega
              exact decide_eq_decide.mpr hiff
          · rw [if_neg h2, if_neg h1,
              if_neg (by omega : ¬(left ≤ i ∧ i < left + 2 ^ (k + 1)))]

/-- Default-valued lookup after an in-bounds `set` at the same index. -/
theorem getD_set_self (l : List Bool) (i : Nat) (v : Bool) (h : i < l.length) :
    (l.set i v).getD i false = v := by
  rw [List.getD_eq_getElem?_getD, List.getElem?_set_self h]
  rfl

/-- Default-valued lookup after a `set` at a different index. -/
theorem getD_set_ne (l : List Bool) (i j : Nat) (v : Bool) (h : i ≠ j) :
    (l.set i v).getD j false = l.getD j false := by
  rw [List.getD_eq_getElem?_getD, List.getElem?_set_ne h, ← List.getD_eq_getElem?_getD]

/-- Default-valued lookup past the end of the list. -/
theorem getD_of_ge (l : List Bool) (i : Nat) (h : l.length ≤ i) :
    l.getD i false = false := by
  rw [List.getD_eq_getElem?_getD, List.getElem?_eq_none_iff.mpr h]
  rfl

/-- Pointwise characterisation of the `total_control` fold: entry `i` of the
target is toggled by its activation expression `f i`, every other entry (and
the length) is unchanged.  Stated for an arbitrary per-index expression `f`;
`total_control` instantiates `f` with the Xnor conjunction. -/
theorem total_control_aux (f : Nat → Bool) :
    ∀ (m : Nat) (target : List Bool),
      (((List.range m).foldl
        (fun tgt n => tgt.set n (Bool.xor (tgt.getD n false) (f n)))
        target).length = target.length) ∧
      ∀ i, ((List.range m).foldl
        (fun tgt n => tgt.set n (Bool.xor (tgt.getD n false) (f n)))
        target).getD i false =
        if i < m ∧ i < target.length then
          Bool.xor (target.getD i false) (f i)
        else target.getD i false := by
  intro m
  induction m with
  | zero =>
      intro target
      refine ⟨rfl, fun i => ?_⟩
      rw [if_neg (by omega), List.range_zero, List.foldl_nil]
  | succ m ih =>
      intro target
      obtain ⟨ihlen, ihget⟩ := ih target
      rw [List.range_succ, List.foldl_append]
      simp only [List.foldl_cons, List.foldl_nil]
      refine ⟨by rw [List.length_set, ihlen], fun i => ?_⟩
      by_cases him : i = m
      · subst him
        by_cases hlen : i < target.length
        · rw [getD_set_self _ _ _ (by rw [ihlen]; exact hlen)]
          rw [if_pos ⟨by omega, hlen⟩]
          congr 1
          have h0 := ihget i
          rw [if_neg (by omega)] at h0
          exact h0
        · rw [if_neg (by omega)]
          rw [getD_of_ge _ _ (by rw [List.length_set, ihlen]; omega)]
          rw [getD_of_ge target _ (by omega)]
      · rw [getD_set_ne _ _ _ _ (Ne.symm him)]
        rw [ihget i]
        by_cases hz : i < m ∧ i < target.length
        · rw [if_pos hz, if_pos ⟨by omega, hz.2⟩]
        · rw [if_neg hz, if_neg (by omega)]

/-- Flattened form of the `segtree` leaf-visit trace on a reachable interval:
the leaves are visited in strictly increasing index order `left, left+1, ...`,
and the activation control of the leaf at offset `j` is the conjunction of the
outer control with the comparison of the consumed selection bits against `j`. -/
theorem segtreeTrace_map (sel : List Bool) :
    ∀ (k : Nat) (ctrl : Bool) (depth left : Nat),
      segtreeTrace ctrl sel depth left (left + 2 ^ k) =
        (List.range (2 ^ k)).map
          fun j => (left + j, ctrl && decide (selVal sel depth k = j)) := by
  intro k
  induction k with
  | zero =>
      intro ctrl depth left
      rw [pow_zero, segtreeTrace]
      have h1 : List.range 1 = [0] := rfl
      rw [h1]
      simp [selVal]
  | succ k ih =>
      intro ctrl depth left
      have hpow : 2 ^ (k + 1) = 2 ^ k + 2 ^ k := by rw [pow_succ]; omega
      have hne : ¬(left + 1 = left + 2 ^ (k + 1)) := by
        have := Nat.two_pow_pos k; omega
      have hlt : left + 1 < left + 2 ^ (k + 1) := by
        have := Nat.two_pow_pos k; omega
      have hmid : (left + (left + 2 ^ (k + 1))) / 2 = left + 2 ^ k := by omega
      rw [segtreeTrace, if_neg hne, dif_pos hlt, hmid]
      have hr : left + 2 ^ (k + 1) = left + 2 ^ k + 2 ^ k := by omega
      rw [hr, ih, ih]
      have hv := selVal_lt sel k (depth + 1)
      have hsv : selVal sel depth (k + 1) =
          (if sel.getD depth false then 2 ^ k else 0) + selVal sel (depth + 1) k := rfl
      rw [hpow, List.range_add, List.map_append, List.map_map]
      congr 1
      · apply List.map_congr_left
        intro j hj
        have hjlt : j < 2 ^ k := List.mem_range.mp hj
        rw [hsv]
        cases hs : sel.getD depth false
        · simp only [Bool.not_false, Bool.and_true, Nat.zero_add, if_false]
          norm_num
        · simp only [Bool.not_true, Bool.and_false, Bool.false_and, if_true]
          have : ¬(2 ^ k + selVal sel (depth + 1) k = j) := by omega
          simp [this]
      · apply List.map_congr_left
        intro j hj
        have hjlt : j < 2 ^ k := List.mem_range.mp hj
        simp only [Function.comp]
        rw [hsv]
        have hadd : left + 2 ^ k + j = left + (2 ^ k + j) := by omega
        cases hs : sel.getD depth false
        · simp only [Bool.and_false, Bool.false_and, Nat.zero_add, if_false]
          have : ¬(selVal sel (depth + 1) k = 2 ^ k + j) := by omega
          simp [this, hadd]
        · simp only [Bool.and_true, if_true]
          rw [hadd]
          congr 1
          congr 1
          exact decide_eq_decide.mpr (by omega)

/-- On a reachable interval the maximal recursion depth of `segtree` is the
starting depth plus the number of halvings. -/
theorem segtreeMaxDepth_eq :
    ∀ (k depth left : Nat), segtreeMaxDepth depth left (left + 2 ^ k) = depth + k := by
  intro k
  induction k with
  | zero =>
      intro depth left
      rw [pow_zero, segtreeMaxDepth]
      simp
  | succ k ih =>
      intro depth left
      have hne : ¬(left + 1 = left + 2 ^ (k + 1)) := by
        have := Nat.two_pow_pos k
        rw [pow_succ]
        omega
      have hlt : left + 1 < left + 2 ^ (k + 1) := by
        have := Nat.two_pow_pos k
        rw [pow_succ]
        omega
      have hmid : (left + (left + 2 ^ (k + 1))) / 2 = left + 2 ^ k := by
        rw [pow_succ]
        omega
      rw [segtreeMaxDepth, if_neg hne, dif_pos hlt, hmid]
      have hr : left + 2 ^ (k + 1) = left + 2 ^ k + 2 ^ k := by rw [pow_succ]; omega
      rw [hr, ih, ih]
      omega

/-- Counting forward And-unit invocations distributes over `cons`. -/
theorem countFwdAnd_cons (x : NetOp) (l : List NetOp) :
    countFwdAnd (x :: l) = (if isFwdAnd x then 1 else 0) + countFwdAnd l := by
  simp only [countFwdAnd, List.filter_cons]
  split
  · simp [Nat.add_comm]
  · simp

/-- Counting forward And-unit invocations distributes over `append`. -/
theorem countFwdAnd_append (l1 l2 : List NetOp) :
    countFwdAnd (l1 ++ l2) = countFwdAnd l1 + countFwdAnd l2 := by
  simp [countFwdAnd, List.filter_append]

/-- Forward And-unit count of the built network on a reachable interval:
exactly one invocation per split node, i.e. `min(right, L) - (left + 1)` as a
single truncated-subtraction formula (zero when the interval lies at or beyond
`L`). -/
theorem buildNet_count (sel : List Bool) :
    ∀ (k : Nat) (ctrl : Bool) (L depth left : Nat),
      countFwdAnd (buildNet ctrl sel L depth left (left + 2 ^ k)) =
        min (left + 2 ^ k) L - (left + 1) := by
  intro k
  induction k with
  | zero =>
      intro ctrl L depth left
      rw [pow_zero, buildNet]
      by_cases hL : left < L
      · rw [if_pos rfl, if_pos hL]
        have h0 : countFwdAnd [NetOp.leafOp left ctrl] = 0 := by
          simp [countFwdAnd, isFwdAnd]
        rw [h0]
        omega
      · rw [if_pos rfl, if_neg hL]
        have h0 : countFwdAnd ([] : List NetOp) = 0 := rfl
        rw [h0]
        omega
  | succ k ih =>
      intro ctrl L depth left
      have hpow : 2 ^ (k + 1) = 2 ^ k + 2 ^ k := by rw [pow_succ]; omega
      have hne : ¬(left + 1 = left + 2 ^ (k + 1)) := by
        have := Nat.two_pow_pos k; omega
      have hlt : left + 1 < left + 2 ^ (k + 1) := by
        have := Nat.two_pow_pos k; omega
      have hmid : (left + (left + 2 ^ (k + 1))) / 2 = left + 2 ^ k := by omega
      rw [buildNet, if_neg hne, dif_pos hlt, hmid]
      have hr : left + 2 ^ (k + 1) = left + 2 ^ k + 2 ^ k := by omega
      by_cases hp : L ≤ left + 2 ^ k
      · rw [if_pos hp, ih]
        have := Nat.two_pow_pos k
        omega
      · rw [if_neg hp, hr]
        rw [countFwdAnd_cons, countFwdAnd_append, countFwdAnd_cons,
          countFwdAnd_append]
        have hadj : countFwdAnd [NetOp.adjAnd ctrl (sel.getD depth false)] = 0 := by
          simp [countFwdAnd, isFwdAnd]
        rw [hadj, ih, ih]
        simp [isFwdAnd]
        have := Nat.two_pow_pos k
        omega

/-- Frame property of `segtree`, by induction on interval size: a normally
returning call on `[left, right)` (any interval, not only the power-of-two
ones) preserves the target length and leaves every entry outside `[left, right)`
unchanged.  `sz` is a slack bound on the interval size for the induction. -/
theorem segtree_frame_aux :
    ∀ (sz : Nat) (ctrl : Bool) (sel target : List Bool) (depth left right : Nat)
      (t' : List Bool), right - left ≤ sz → left < right → right ≤ target.length →
      segtree ctrl sel target depth left right = some t' →
      t'.length = target.length ∧
      ∀ i, i < left ∨ right ≤ i → t'.getD i false = target.getD i false := by
  intro sz
  induction sz with
  | zero =>
      intro ctrl sel target depth left right t' hsz hlr _ _
      omega
  | succ sz ih =>
      intro ctrl sel target depth left right t' hsz hlr hlen h
      by_cases hleaf : left + 1 = right
      · rw [segtree, if_pos hleaf, if_pos (by omega)] at h
        injection h with h
        subst h
        refine ⟨List.length_set target left _, fun i hi => ?_⟩
        exact getD_set_ne target left i _ (by omega)
      · have hlt2 : left + 1 < right := by omega
        rw [segtree, if_neg hleaf, dif_pos hlt2] at h
        by_cases hdep : depth < sel.length
        · rw [if_pos hdep] at h
          simp only [] at h
          have hmid1 : left < (left + right) / 2 := by omega
          have hmid2 : (left + right) / 2 < right := by omega
          cases e1 : segtree (ctrl && !(sel.getD depth false)) sel target
              (depth + 1) left ((left + right) / 2) with
          | none =>
              rw [e1] at h
              cases h
          | some t1 =>
              rw [e1] at h
              obtain ⟨len1, frame1⟩ :=
                ih (ctrl && !(sel.getD depth false)) sel target (depth + 1)
                  left ((left + right) / 2) t1 (by omega) hmid1 (by omega) e1
              obtain ⟨len2, frame2⟩ :=
                ih (ctrl && sel.getD depth false) sel t1 (depth + 1)
                  ((left + right) / 2) right t' (by omega) hmid2
                  (by rw [len1]; exact hlen) h
              refine ⟨len2.trans len1, fun i hi => ?_⟩
              rw [frame2 i (by omega), frame1 i (by omega)]
        · rw [if_neg hdep] at h
          cases h

/-! ### Claim theorems -/

/-- C1: for selector width `w ≥ 1`, iteration length `1 ≤ L ≤ 2 ^ w` and
`n ∈ [0, L)`, running `segtree` with the outer control asserted and the `w`
selection symbols fixed to the bits of `n` toggles `target[n]` and leaves
`target[m]` unchanged for every `m ≠ n` (the per-index operation of the
notebook's network is the toggle `X`, applied exactly at leaf `n` and as the
identity at every other leaf). -/
theorem segtree_selects_nth (w L n : Nat) (target : List Bool)
    (hw : 1 ≤ w) (hL1 : 1 ≤ L) (hL2 : L ≤ 2 ^ w) (hn : n < L)
    (htar : target.length = 2 ^ w) :
    ∃ t', segtree true (iter_bits n w) target 0 0 (2 ^ w) = some t' ∧
      t'.getD n false = !(target.getD n false) ∧
      ∀ m, m ≠ n → t'.getD m false = target.getD m false := by
  have hn2 : n < 2 ^ w := by omega
  obtain ⟨t', e, len, spec⟩ := segtree_spec (iter_bits n w) w true target 0 0
    (by rw [iter_bits_length]; omega) (by omega)
  rw [Nat.zero_add] at e
  refine ⟨t', e, ?_, ?_⟩
  · have h := spec n
    rw [if_pos ⟨Nat.zero_le n, by omega⟩, selVal_iter_bits n w hn2,
      Nat.sub_zero] at h
    simpa using h
  · intro m hm
    have h := spec m
    by_cases hm2 : m < 2 ^ w
    · rw [if_pos ⟨Nat.zero_le m, by omega⟩, selVal_iter_bits n w hn2,
        Nat.sub_zero] at h
      have hne : ¬(n = m) := fun hh => hm hh.symm
      simpa [hne] using h
    · rw [if_neg (by omega)] at h
      exact h

/-- Witness for C1 at `w = 2`, `L = 3`, `n = 2`, zero-initialised target. -/
theorem segtree_selects_nth_witness :
    ∃ t', segtree true (iter_bits 2 2) [false, false, false, false] 0 0
        (2 ^ 2) = some t' ∧
      t'.getD 2 false = !(([false, false, false, false] : List Bool).getD 2 false) ∧
      ∀ m, m ≠ 2 → t'.getD m false =
        ([false, false, false, false] : List Bool).getD m false :=
  segtree_selects_nth 2 3 2 [false, false, false, false]
    (by decide) (by decide) (by decide) (by decide) (by decide)

/-- C2: the segment-tree construction and the naive total-control construction
compute the same function of the selector: for every assignment of the
selection symbols, `segtree` returns exactly the target that `total_control`
produces, so the activation expression assigned to each `target[n]` agrees
with the conjunction of `Xnor(selection[i], bit_i(n))`. -/
theorem segtree_refines_total_control (sel target : List Bool)
    (htar : target.length = 2 ^ sel.length) :
    segtree true sel target 0 0 (2 ^ sel.length) =
      some (total_control sel target) := by
  obtain ⟨t', e, len, spec⟩ := segtree_spec sel sel.length true target 0 0
    (by omega) (by omega)
  rw [Nat.zero_add] at e
  rw [e]
  congr 1
  obtain ⟨tclen, tcget⟩ := total_control_aux
    (fun n => (sel.zip (iter_bits n sel.length)).all fun p => xnor p.1 p.2)
    (2 ^ sel.length) target
  have htc : total_control sel target =
      (List.range (2 ^ sel.length)).foldl
        (fun tgt n => tgt.set n (Bool.xor (tgt.getD n false)
          ((fun n => (sel.zip (iter_bits n sel.length)).all fun p => xnor p.1 p.2) n)))
        target := rfl
  apply List.ext_getElem
  · rw [len, htc, tclen]
  · intro i h1 h2
    rw [← List.getD_eq_getElem t' false h1, ← List.getD_eq_getElem _ false h2]
    have hi : i < 2 ^ sel.length := by rw [len, htar] at h1; exact h1
    rw [spec i, htc, tcget i]
    rw [if_pos ⟨Nat.zero_le i, by omega⟩, if_pos ⟨hi, by omega⟩,
      Nat.sub_zero, Bool.true_and]
    congr 1
    exact (xnor_zip_eq_decide sel i hi).symm

/-- Witness for C2 with two selection symbols and a length-4 target. -/
theorem segtree_refines_total_control_witness :
    segtree true [true, false] [false, false, false, false] 0 0
      (2 ^ (List.length [true, false])) =
      some (total_control [true, false] [false, false, false, false]) :=
  segtree_refines_total_control [true, false] [false, false, false, false]
    (by decide)

/-- C3: at an internal node whose midpoint already reaches the iteration
length (`mid ≥ L`), the builder recurses only into `[left, mid)`, reusing its
activation control unchanged, and emits no And operation (nor anything else)
for that node. -/
theorem buildNet_prunes_empty_right (ctrl : Bool) (sel : List Bool)
    (L depth left right : Nat) (hint : left + 1 < right)
    (hprune : L ≤ (left + right) / 2) :
    buildNet ctrl sel L depth left right =
      buildNet ctrl sel L (depth + 1) left ((left + right) / 2) := by
  rw [buildNet, if_neg (by omega), dif_pos hint, if_pos hprune]

/-- Witness for C3 at `L = 2` on the node `[0, 4)` with `mid = 2`. -/
theorem buildNet_prunes_empty_right_witness :
    buildNet true [] 2 0 0 4 = buildNet true [] 2 1 0 ((0 + 4) / 2) :=
  buildNet_prunes_empty_right true [] 2 0 0 4 (by decide) (by decide)

/-- C4: at every internal node the builder computes the left-branch control
`And(active_control, Not(selection_bit[depth]))`, recurses into `[left, mid)`,
then computes the right-branch control `And(active_control,
selection_bit[depth])` and recurses into `[mid, right)`, in that fixed order;
consequently the leaves are visited in increasing index order with the
path-conjunction controls. -/
theorem segtree_branch_order (ctrl : Bool) (sel : List Bool)
    (depth left k : Nat) :
    segtreeTrace ctrl sel depth left (left + 2 ^ (k + 1)) =
      segtreeTrace (ctrl && !(sel.getD depth false)) sel (depth + 1) left
        (left + 2 ^ k) ++
      segtreeTrace (ctrl && sel.getD depth false) sel (depth + 1)
        (left + 2 ^ k) (left + 2 ^ (k + 1)) ∧
    segtreeTrace ctrl sel depth left (left + 2 ^ k) =
      (List.range (2 ^ k)).map
        fun j => (left + j, ctrl && decide (selVal sel depth k = j)) := by
  constructor
  · have hpow : 2 ^ (k + 1) = 2 ^ k + 2 ^ k := by rw [pow_succ]; omega
    have hne : ¬(left + 1 = left + 2 ^ (k + 1)) := by
      have := Nat.two_pow_pos k; omega
    have hlt : left + 1 < left + 2 ^ (k + 1) := by
      have := Nat.two_pow_pos k; omega
    have hmid : (left + (left + 2 ^ (k + 1))) / 2 = left + 2 ^ k := by omega
    rw [segtreeTrace, if_neg hne, dif_pos hlt, hmid]
  · exact segtreeTrace_map sel k ctrl depth left

/-- C5: the number of forward And-unit invocations in the built network for
iteration length `1 ≤ L ≤ 2 ^ w` is exactly `L - 1`; in particular it equals
`L - 1` when `L` is a power of two and is at most `L - 1` otherwise. -/
theorem buildNet_fwdAnd_count (sel : List Bool) (w L : Nat)
    (hL1 : 1 ≤ L) (hL2 : L ≤ 2 ^ w) :
    countFwdAnd (buildNet true sel L 0 0 (2 ^ w)) = L - 1 := by
  have h := buildNet_count sel w true L 0 0
  rw [Nat.zero_add, Nat.zero_add] at h
  rw [h, Nat.min_eq_right hL2]

/-- Witness for C5 at `w = 3`, `L = 5` (not a power of two): 4 forward Ands. -/
theorem buildNet_fwdAnd_count_witness :
    countFwdAnd (buildNet true [] 5 0 0 (2 ^ 3)) = 5 - 1 :=
  buildNet_fwdAnd_count [] 3 5 (by decide) (by decide)

/-- C6: the forward And operation on control values `(a, b)` and a
zero-initialised target leaves the controls unchanged and puts `a && b` on the
target line, for all four control patterns. -/
theorem andForward_truth_table :
    ∀ a b : Bool, andForward (a, b, false) = (a, b, a && b) := by decide

/-- C7: the adjoint And operation on controls `(a, b)` and a target holding
`a && b` leaves the controls unchanged and restores the target to exactly
zero; composing the adjoint after the forward operation on any `(a, b, 0)`
input is the identity. -/
theorem andAdjoint_restores_zero :
    ∀ a b : Bool, andAdjoint (a, b, a && b) = (a, b, false) ∧
      andAdjoint (andForward (a, b, false)) = (a, b, false) := by decide

/-- C8: from the top-level call `segtree(true, selection, target, 0, 0, 2^w)`
with `len(selection) = w ≥ 1` the assertion `depth < len(selection)` never
fails — the call returns normally — and the recursion depth never exceeds
`w`. -/
theorem segtree_assert_depth_ok (w : Nat) (sel target : List Bool)
    (hw : 1 ≤ w) (hsel : sel.length = w) (htar : target.length = 2 ^ w) :
    (∃ t', segtree true sel target 0 0 (2 ^ w) = some t') ∧
    segtreeMaxDepth 0 0 (2 ^ w) = w := by
  constructor
  · obtain ⟨t', e, -, -⟩ := segtree_spec sel w true target 0 0
      (by omega) (by omega)
    rw [Nat.zero_add] at e
    exact ⟨t', e⟩
  · have h := segtreeMaxDepth_eq w 0 0
    simpa using h

/-- Witness for C8 at `w = 2`. -/
theorem segtree_assert_depth_ok_witness :
    (∃ t', segtree true [false, true] [false, false, false, false] 0 0
      (2 ^ 2) = some t') ∧
    segtreeMaxDepth 0 0 (2 ^ 2) = 2 :=
  segtree_assert_depth_ok 2 [false, true] [false, false, false, false]
    (by decide) (by decide) (by decide)

/-- C9: constructing a `SelectionRegister` yields the `InvalidBounds` error
exactly when the iteration length lies outside `(0, 2 ^ bitsize]`, and
succeeds (returning the register unchanged, with no error at construction or
later) exactly when it lies inside. -/
theorem mkSelectionRegister_bounds (nm : String) (w : Nat) (L : Int) :
    (mkSelectionRegister nm w L = Except.error RegError.invalidBounds ↔
      (L ≤ 0 ∨ (2 : Int) ^ w < L)) ∧
    (mkSelectionRegister nm w L = Except.ok ⟨nm, w, L⟩ ↔
      (0 < L ∧ L ≤ (2 : Int) ^ w)) := by
  unfold mkSelectionRegister
  split_ifs with h1 h2
  · refine ⟨by simp [h1], ?_⟩
    constructor
    · intro h
      simp at h
    · intro h
      omega
  · refine ⟨by simp [h2], ?_⟩
    constructor
    · intro h
      simp at h
    · intro h
      omega
  · refine ⟨?_, ?_⟩
    · constructor
      · intro h
        simp at h
      · intro h
        omega
    · constructor
      · intro h
        omega
      · intro h
        rfl

/-- C10: a normally returning call `segtree(ctrl, selection, target, depth,
left, right)` with `0 ≤ left < right ≤ len(target)` modifies only the entries
`target[i]` with `left ≤ i < right`: the length is preserved and every entry
outside `[left, right)` is unchanged (the selection list is read-only
throughout, as the embedding passes it unchanged to every recursive call). -/
theorem segtree_frame (ctrl : Bool) (sel target : List Bool)
    (depth left right : Nat) (t' : List Bool)
    (h1 : left < right) (h2 : right ≤ target.length)
    (h3 : segtree ctrl sel target depth left right = some t') :
    t'.length = target.length ∧
    ∀ i, i < left ∨ right ≤ i → t'.getD i false = target.getD i false :=
  segtree_frame_aux (right - left) ctrl sel target depth left right t'
    (le_refl _) h1 h2 h3

/-- Witness for C10: the leaf call on `[1, 2)` of a length-3 target leaves
entry 2 (outside the interval) unchanged. -/
theorem segtree_frame_witness :
    ([false, true, false] : List Bool).getD 2 false =
      ([false, false, false] : List Bool).getD 2 false :=
  (segtree_frame true [true] [false, false, false] 0 1 2 [false, true, false]
    (by decide) (by decide) (by simp [segtree])).2 2 (by decide)

end CirqFT
